import Mathlib

/- Shallow embedding of the ra-clients model client:
   src/raclients/modelclientbase.py (ModelClientBase: context, _verify_session,
   __check_if_server_online, _post_to_backend, _submit_chunk, _submit_payloads)
   and src/raclients/mo/modelclient.py (ModelClient: __mo_path_map,
   _post_single_to_backend under its tenacity retry decorator). -/

deriving instance DecidableEq for Except

/-- Runtime type tag of a domain object, Python type(x). The six named
constructors are the keys of ModelClient.__mo_path_map; Other s stands for
any further ramodels class whose __name__ is s. -/
inductive MOType where
  | OrganisationUnit
  | Employee
  | Engagement
  | EngagementAssociation
  | Manager
  | Address
  | Other (name : String)
deriving DecidableEq, Repr

/-- Python type(x).__name__ for the modelled classes. -/
def MOType.typeName : MOType → String
  | .OrganisationUnit => "OrganisationUnit"
  | .Employee => "Employee"
  | .Engagement => "Engagement"
  | .EngagementAssociation => "EngagementAssociation"
  | .Manager => "Manager"
  | .Address => "Address"
  | .Other s => s

/-- A domain object (an RABase instance): a runtime type tag plus an opaque
serialized payload distinguishing individual objects. -/
structure RABase where
  typ : MOType
  payload : String
deriving DecidableEq, Repr

instance : Inhabited RABase := ⟨⟨.Employee, ("")⟩⟩

/-- Grouping key used by _submit_payloads: type(x).__name__. -/
def raTypeName (x : RABase) : String := x.typ.typeName

/-- Exceptions raised by the client, one constructor per raise site. -/
inductive ClientError where
  | notInitialized
  | connectFailure
  | unknownType (name : String)
  | keyMissing (name : String)
  | assertViolation
  | indexOutOfRange
  | backendValidation (message : String)
  | httpStatus (status : Nat)
  | network
  | retryExhausted (last : ClientError)
deriving DecidableEq, Repr

/-- The aiohttp ClientSession handle, reduced to an identity. -/
structure ClientSession where
  id : Nat
deriving DecidableEq, Repr

/-- ModelClientBase._verify_session: return the stored session or raise if
the client session was never initialized. -/
def verify_session (session : Option ClientSession) : Except ClientError ClientSession :=
  match session with
  | none => .error .notInitialized
  | some s => .ok s

/-- ModelClient.__mo_path_map from src/raclients/mo/modelclient.py. -/
def mo_path_map : MOType → Option String
  | .OrganisationUnit => some ("/service/ou/create")
  | .Employee => some ("/service/e/create")
  | .Engagement => some ("/service/details/create")
  | .EngagementAssociation => some ("/service/details/create")
  | .Manager => some ("/service/details/create")
  | .Address => some ("/service/details/create")
  | .Other _ => none

/-- Helper for groupbyRuns: given the first element x of the remaining
input, return the run of elements sharing key x together with the fully
grouped tail after that run. -/
def groupbyAux (key : α → String) (x : α) : List α → List α × List (String × List α)
  | [] => ([x], [])
  | y :: ys =>
    let p := groupbyAux key y ys
    if key y == key x then (x :: p.1, p.2)
    else ([x], (key y, p.1) :: p.2)

/-- itertools.groupby(objs, key) as used in _submit_payloads: groups of
CONSECUTIVE elements with equal key, in input order. -/
def groupbyRuns (key : α → String) : List α → List (String × List α)
  | [] => []
  | x :: xs =>
    let p := groupbyAux key x xs
    (key x, p.1) :: p.2

/-- Fuelled helper for chunked; the fuel is an upper bound on the length of
the list being split, so the last branch is exercised exactly as long as
elements remain. -/
def chunkedF (n : Nat) : Nat → List α → List (List α)
  | _, [] => []
  | 0, _ :: _ => []
  | fuel + 1, x :: xs => (x :: xs).take n :: chunkedF n fuel ((x :: xs).drop n)

/-- more_itertools.chunked(xs, n): split xs into pieces of size n, the last
piece possibly shorter. With n = 0 the iterator yields nothing at all. -/
def chunked (n : Nat) (xs : List α) : List (List α) :=
  if n = 0 then [] else chunkedF n xs.length xs

/-- asyncio.gather over one _post_single_to_backend coroutine per object:
all results in input order, or the exception of a failed member. -/
def gather_posts (post : RABase → Except ClientError A) : List RABase → Except ClientError (List A)
  | [] => .ok []
  | x :: xs =>
    match post x, gather_posts post xs with
    | .error e, _ => .error e
    | .ok _, .error e => .error e
    | .ok v, .ok vs => .ok (v :: vs)

/-- ModelClientBase._post_to_backend: verify the session, then gather one
single-object post per element. The second component is the list of objects
for which a POST was issued. -/
def post_to_backend (session : Option ClientSession) (post : RABase → Except ClientError A)
    (data : List RABase) : Except ClientError (List A) × List RABase :=
  match verify_session session with
  | .error e => (.error e, [])
  | .ok _ => (gather_posts post data, data)

/-- ModelClientBase._submit_chunk: take data[0] (IndexError on an empty
chunk), assert every member has that same runtime type, fail closed with
TypeError when the type has no path-map entry, then post the whole chunk.
The second component is the list of objects POSTed for this chunk. -/
def submit_chunk (session : Option ClientSession) (pm : MOType → Option String)
    (post : RABase → Except ClientError A) (data : List RABase) :
    Except ClientError (List A) × List RABase :=
  match data with
  | [] => (.error .indexOutOfRange, [])
  | x :: rest =>
    if (x :: rest).all (fun o => o.typ == x.typ) then
      if (pm x.typ).isSome then post_to_backend session post (x :: rest)
      else (.error (.unknownType (x.typ.typeName)), [])
    else (.error .assertViolation, [])

/-- Drain loop over a family of already-created chunk tasks: order lists the
task indices in completion order; results of completed tasks are extended
onto the aggregate list and the first failing awaited task propagates its
exception. -/
def drain_tasks (tasks : List (Except ClientError (List A))) : List Nat → Except ClientError (List A)
  | [] => .ok []
  | i :: rest =>
    match tasks.getD i (.error .indexOutOfRange) with
    | .error e => .error e
    | .ok r =>
      match drain_tasks tasks rest with
      | .error e => .error e
      | .ok rs => .ok (r ++ rs)

/-- One iteration of the outer loop of _submit_payloads: all chunk tasks of
one type group are scheduled by as_completed (so every chunk of the group
issues its POSTs), then drained in completion order. -/
def run_group (session : Option ClientSession) (pm : MOType → Option String)
    (post : RABase → Except ClientError A) (chunks : List (List RABase)) (order : List Nat) :
    Except ClientError (List A) × List RABase :=
  let outs := chunks.map (fun c => submit_chunk session pm post c)
  (drain_tasks (outs.map Prod.fst) order, (outs.map Prod.snd).flatten)

/-- The outer loop of _submit_payloads: type groups are processed strictly
in group order; a failing group stops the loop, so later groups are never
scheduled and issue no POSTs. -/
def run_groups (session : Option ClientSession) (pm : MOType → Option String)
    (post : RABase → Except ClientError A) :
    List (List (List RABase)) → List (List Nat) → Except ClientError (List A) × List RABase
  | [], _ => (.ok [], [])
  | g :: gs, orders =>
    let p := run_group session pm post g (orders.headD (List.range g.length))
    match p.1 with
    | .error e => (.error e, p.2)
    | .ok rs =>
      let q := run_groups session pm post gs orders.tail
      match q.1 with
      | .error e => (.error e, p.2 ++ q.2)
      | .ok rs2 => (.ok (rs ++ rs2), p.2 ++ q.2)

/-- Observable outcome of one _submit_payloads call: the returned value or
raised exception, whether the tqdm progress display was opened, and the
list of objects POSTed during the call. -/
structure BatchOutcome (A : Type) where
  result : Except ClientError (List A)
  progressOpened : Bool
  posts : List RABase
deriving Repr

/-- ModelClientBase._submit_payloads: materialize the input, group by
type(x).__name__ with itertools.groupby, split each group into chunks of
chunk_size, return [] immediately when there are no chunk tasks at all,
otherwise open the progress display and drain the groups. orders gives,
per type group, the completion order of that group as_completed drain. -/
def submit_payloads (chunk_size : Nat) (session : Option ClientSession)
    (pm : MOType → Option String) (post : RABase → Except ClientError A)
    (objs : List RABase) (orders : List (List Nat)) : BatchOutcome A :=
  let groups := groupbyRuns raTypeName objs
  let chunked_groups := groups.map (fun p => (p.1, chunked chunk_size p.2))
  if chunked_groups.all (fun p => p.2.isEmpty) then
    ⟨.ok [], false, []⟩
  else
    let r := run_groups session pm post (chunked_groups.map Prod.snd) orders
    ⟨r.1, true, r.2⟩

/-- Modelled from the spec: the drain step as claim C3 describes it, a
SINGLE completion-order iterator over all chunk tasks across all type
groups, with globalOrder the completion order of the whole task set. Kept
only to compare against the per-group drain of submit_payloads. -/
def submit_payloads_single_iter (chunk_size : Nat) (session : Option ClientSession)
    (pm : MOType → Option String) (post : RABase → Except ClientError A)
    (objs : List RABase) (globalOrder : List Nat) : Except ClientError (List A) :=
  let groups := groupbyRuns raTypeName objs
  let allChunks := (groups.map (fun p => chunked chunk_size p.2)).flatten
  drain_tasks (allChunks.map (fun c => (submit_chunk session pm post c).1)) globalOrder

/-- Parsed JSON body of one backend response: the optional description
field that _post_single_to_backend inspects, plus the rest of the
document. -/
structure Json where
  description : Option String
  rest : String
deriving DecidableEq, Repr

/-- What one POST attempt observes from the backend: an HTTP reply carrying
a status and a parsed JSON body, or a transport-level failure. -/
inductive HttpReply where
  | reply (status : Nat) (body : Json)
  | netFail
deriving DecidableEq, Repr

/-- One attempt of ModelClient._post_single_to_backend, the body under the
retry decorator: verify the session, resolve the URL via __mo_path_map
(KeyError when the type is absent), POST; on a reply, parse the JSON then
raise_for_status: statuses of 400 and above raise a ClientResponseError
whose message is replaced by the description field of the body when that
field is present; otherwise the parsed body is returned. -/
def post_single_attempt (session : Option ClientSession) (pm : MOType → Option String)
    (current_type : MOType) (r : HttpReply) : Except ClientError Json :=
  match verify_session session with
  | .error e => .error e
  | .ok _ =>
    match pm current_type with
    | none => .error (.keyMissing (current_type.typeName))
    | some _ =>
      match r with
      | .netFail => .error .network
      | .reply status body =>
        if 400 ≤ status then
          match body.description with
          | some d => .error (.backendValidation d)
          | none => .error (.httpStatus status)
        else .ok body

/-- tenacity retry loop with stop_after_attempt semantics and the default
reraise=False: k is the current attempt number, the second argument the
number of attempts still allowed; by default every exception of an attempt
is retried, and when the final allowed attempt fails a RetryError wrapping
that last exception is raised instead of the exception itself. -/
def retryLoop (f : Nat → Except ClientError A) (k : Nat) : Nat → Except ClientError A
  | 0 => .error (.retryExhausted .network)
  | 1 =>
    match f k with
    | .ok v => .ok v
    | .error e => .error (.retryExhausted e)
  | r + 2 =>
    match f k with
    | .ok v => .ok v
    | .error _ => retryLoop f (k + 1) (r + 1)

/-- The retry decorator with stop_after_attempt(attempts), starting at
attempt number 1. -/
def tenacity_retry (attempts : Nat) (f : Nat → Except ClientError A) : Except ClientError A :=
  retryLoop f 1 attempts

/-- ModelClient._post_single_to_backend as callers see it: the attempt body
under retry(wait=wait_exponential(multiplier=2, min=1),
stop=stop_after_attempt(7)), where attempt k observes responses k. -/
def post_single_to_backend (session : Option ClientSession) (pm : MOType → Option String)
    (current_type : MOType) (responses : Nat → HttpReply) : Except ClientError Json :=
  tenacity_retry 7 (fun k => post_single_attempt session pm current_type (responses k))

/-- wait_exponential(multiplier=2, min=1): the delay scheduled after attempt
number n, in seconds. -/
def retry_wait (n : Nat) : Nat := max 1 (2 * 2 ^ (n - 1))

/-- ModelClientBase.__check_if_server_online: acquires the session through
_verify_session before issuing any GET; the probing itself is abstracted as
a function of the session returning its outcome together with the number of
GET requests it issued. -/
def check_if_server_online (session : Option ClientSession)
    (probe : ClientSession → Except ClientError Unit × Nat) :
    Except ClientError Unit × Nat :=
  match verify_session session with
  | .error e => (.error e, 0)
  | .ok s => probe s

/-- Session-related state of one client instance: the shared handle
self._session and the number of live underlying aiohttp sessions. -/
structure ClientState where
  session : Option Nat
  liveSessions : Nat
deriving DecidableEq, Repr

/-- Entering the session factory async context: one more live session,
whose identity is returned. -/
def open_session (s : ClientState) : ClientState × Nat :=
  ({ s with liveSessions := s.liveSessions + 1 }, s.liveSessions)

/-- Leaving the session factory async context closes the session. -/
def close_session (s : ClientState) : ClientState :=
  { s with liveSessions := s.liveSessions - 1 }

/-- Semantics of an async with block: enter, run the body, and run the
exit action whether or not the body raised. -/
def async_with (enter : ClientState → ClientState × Nat)
    (leave : ClientState → ClientState)
    (body : Nat → ClientState → ClientState × Except ClientError Unit)
    (s : ClientState) : ClientState × Except ClientError Unit :=
  let p := enter s
  let q := body p.2 p.1
  (leave q.1, q.2)

/-- Semantics of try/finally: the finally clause runs on every exit path,
normal or exceptional. -/
def try_finally (body : ClientState → ClientState × Except ClientError Unit)
    (fin : ClientState → ClientState) (s : ClientState) :
    ClientState × Except ClientError Unit :=
  let p := body s
  (fin p.1, p.2)

/-- ModelClientBase.context: inside try/finally, enter the session factory
async with, store the handle in self._session, run the health check, then
yield to the caller scope; probe and body are the outcomes of the health
check and of the caller scope (ok for a normal or early return, error for
an exception). The finally clause clears the handle and the async with
closes the session on every exit path. -/
def context_run (probe body : Except ClientError Unit) (s : ClientState) :
    ClientState × Except ClientError Unit :=
  try_finally
    (async_with open_session close_session (fun sid st =>
      let st1 := { st with session := some sid }
      match probe with
      | .error e => (st1, .error e)
      | .ok _ => (st1, body)))
    (fun st => { st with session := none })
    s

/-- The client states traversed by one context_run, in order: initial,
after the factory opened the session, after the handle was stored, after
the async with closed the session, and after the finally clause cleared
the handle. -/
def context_states (s : ClientState) : List ClientState :=
  let p := open_session s
  let s2 := { p.1 with session := some p.2 }
  let s3 := close_session s2
  [s, p.1, s2, s3, { s3 with session := none }]

/-- True when no two objects of the input carry distinct runtime types
sharing one __name__ (distinct Python classes may share a name; then the
name-keyed grouping would mix them and trip the isinstance assertion). -/
def no_name_clash (objs : List RABase) : Bool :=
  objs.all (fun x => objs.all (fun y => (raTypeName x != raTypeName y) || (x.typ == y.typ)))

/-- True when orders supplies, for each group task-count in sizes, a
completion order that is a permutation of the task indices of that
group. -/
def orders_ok : List (List Nat) → List Nat → Bool
  | [], [] => true
  | o :: os, n :: ns => decide (List.Perm o (List.range n)) && orders_ok os ns
  | _, _ => false

/-- Number of chunk tasks per type group for a given input and chunk
size. -/
def chunk_counts (cs : Nat) (objs : List RABase) : List Nat :=
  (groupbyRuns raTypeName objs).map (fun p => (chunked cs p.2).length)

/-- True when no two adjacent keys in the list coincide (maximality of the
runs produced by itertools.groupby). -/
def adjacent_differ : List String → Bool
  | [] => true
  | [_] => true
  | a :: b :: rest => (a != b) && adjacent_differ (b :: rest)

/-- Inputs used by concrete counterexamples and witnesses. -/
def objE1 : RABase := ⟨.Employee, ("a")⟩

def objO1 : RABase := ⟨.OrganisationUnit, ("b")⟩

def objE2 : RABase := ⟨.Employee, ("c")⟩

/-- Interleaved input for claim C1: Employee, OrganisationUnit, Employee. -/
def exC1 : List RABase := [objE1, objO1, objE2]

/-- Two-type input for claim C3. -/
def exC3 : List RABase := [objE1, objO1]

/-- Backend behaviour for claim C2: a 422 with a description on the first
attempt, then success. -/
def respC2 : Nat → HttpReply :=
  fun k => if k = 1 then .reply 422 ⟨some ("bad request"), ("{}")⟩
           else .reply 200 ⟨none, ("created")⟩

/-- Backend behaviour for claim C4: every attempt is answered with a 422
whose body is the JSON document with description field invalid uuid. -/
def respC4 : Nat → HttpReply := fun _ => .reply 422 ⟨some ("invalid uuid"), ("{}")⟩

/-- Conditions under which _submit_chunk succeeds on a chunk: nonempty,
homogeneous in runtime type, and its type present in the path map. -/
def chunk_ready (pm : MOType → Option String) : List RABase → Prop
  | [] => False
  | x :: rest => (∀ y ∈ x :: rest, y.typ = x.typ) ∧ (pm x.typ).isSome

/-- The run produced by groupbyAux starts with the element it was seeded
with. -/
theorem groupbyAux_fst_cons (key : α → String) (x : α) (l : List α) :
    ∃ u, (groupbyAux key x l).1 = x :: u := by
  cases l with
  | nil => exact ⟨[], rfl⟩
  | cons y ys =>
    simp only [groupbyAux]
    by_cases h : key y == key x
    · exact ⟨(groupbyAux key y ys).1, by simp [h]⟩
    · exact ⟨[], by simp [h]⟩

/-- Concatenating the run produced by groupbyAux with the flattened
remaining groups recovers the input. -/
theorem groupbyAux_flatten (key : α → String) (x : α) (l : List α) :
    (groupbyAux key x l).1 ++ (((groupbyAux key x l).2.map Prod.snd).flatten) = x :: l := by
  induction l generalizing x with
  | nil => rfl
  | cons y ys ih =>
    simp only [groupbyAux]
    by_cases h : key y == key x
    · simpa [h] using ih y
    · simpa [h] using ih y

/-- Concatenating the groups of groupbyRuns recovers the input. -/
theorem groupbyRuns_flatten (key : α → String) (l : List α) :
    (((groupbyRuns key l).map Prod.snd).flatten) = l := by
  cases l with
  | nil => rfl
  | cons x xs =>
    simpa [groupbyRuns] using groupbyAux_flatten key x xs

/-- Every group delivered by groupbyAux is nonempty and homogeneous in its
key, and the run itself carries the key of its first element. -/
theorem groupbyAux_key (key : α → String) (x : α) (l : List α) :
    (∀ y ∈ (groupbyAux key x l).1, key y = key x) ∧
    (∀ p ∈ (groupbyAux key x l).2, p.2 ≠ [] ∧ ∀ z ∈ p.2, key z = p.1) := by
  induction l generalizing x with
  | nil =>
    refine ⟨?_, ?_⟩
    · intro y hy
      simp only [groupbyAux, List.mem_singleton] at hy
      simp [hy]
    · intro p hp
      simp [groupbyAux] at hp
  | cons y ys ih =>
    obtain ⟨ih1, ih2⟩ := ih y
    by_cases h : key y == key x
    · have hyx : key y = key x := by simpa using h
      refine ⟨?_, ?_⟩
      · intro z hz
        simp [groupbyAux, h] at hz
        rcases hz with rfl | hz
        · rfl
        · rw [ih1 z hz, hyx]
      · intro p hp
        simp [groupbyAux, h] at hp
        exact ih2 p hp
    · refine ⟨?_, ?_⟩
      · intro z hz
        simp [groupbyAux, h] at hz
        simp [hz]
      · intro p hp
        simp [groupbyAux, h] at hp
        rcases hp with hp | hp
        · obtain ⟨u, hu⟩ := groupbyAux_fst_cons key y ys
          rw [hp]
          exact ⟨by simp [hu], ih1⟩
        · exact ih2 p hp

/-- Every group of groupbyRuns is nonempty and homogeneous in its key. -/
theorem groupbyRuns_key (key : α → String) (l : List α) :
    ∀ p ∈ groupbyRuns key l, p.2 ≠ [] ∧ ∀ z ∈ p.2, key z = p.1 := by
  cases l with
  | nil => intro p hp; simp [groupbyRuns] at hp
  | cons x xs =>
    intro p hp
    simp only [groupbyRuns, List.mem_cons] at hp
    obtain ⟨h1, h2⟩ := groupbyAux_key key x xs
    rcases hp with rfl | hp
    · obtain ⟨u, hu⟩ := groupbyAux_fst_cons key x xs
      exact ⟨by simp [hu], h1⟩
    · exact h2 p hp

/-- Adjacent groups produced by groupbyAux carry distinct keys, including
at the boundary with the run seeded by x. -/
theorem groupbyAux_adjacent (key : α → String) (x : α) (l : List α) :
    adjacent_differ (key x :: (groupbyAux key x l).2.map Prod.fst) = true := by
  induction l generalizing x with
  | nil => rfl
  | cons y ys ih =>
    simp only [groupbyAux]
    by_cases h : key y == key x
    · have hyx : key y = key x := by simpa using h
      simpa [h, hyx] using ih y
    · have hne : (key x != key y) = true := by
        simp only [bne_iff_ne, ne_eq]
        intro hxy
        simp [hxy] at h
      simp only [h, if_neg, Bool.not_eq_true, List.map_cons]
      simp only [adjacent_differ, hne, Bool.true_and]
      exact ih y

/-- Adjacent groups of groupbyRuns carry distinct keys: the runs are
maximal. -/
theorem groupbyRuns_adjacent (key : α → String) (l : List α) :
    adjacent_differ ((groupbyRuns key l).map Prod.fst) = true := by
  cases l with
  | nil => rfl
  | cons x xs => simpa [groupbyRuns] using groupbyAux_adjacent key x xs

/-- chunkedF ignores its fuel as long as the fuel dominates the length of
the list being split. -/
theorem chunkedF_fuel (n : Nat) (hn : n ≠ 0) :
    ∀ (f₁ f₂ : Nat) (xs : List α), xs.length ≤ f₁ → xs.length ≤ f₂ →
      chunkedF n f₁ xs = chunkedF n f₂ xs := by
  intro f₁
  induction f₁ with
  | zero =>
    intro f₂ xs h₁ _
    have : xs = [] := List.length_eq_zero.mp (Nat.le_zero.mp h₁)
    subst this
    cases f₂ <;> rfl
  | succ f ih =>
    intro f₂ xs h₁ h₂
    cases xs with
    | nil => cases f₂ <;> rfl
    | cons x t =>
      cases f₂ with
      | zero => exact absurd h₂ (by simp)
      | succ f₂ =>
        simp only [chunkedF]
        congr 1
        have hd : ((x :: t).drop n).length ≤ t.length := by
          simp only [List.length_drop, List.length_cons]
          omega
        exact ih f₂ ((x :: t).drop n)
          (le_trans hd (Nat.le_of_succ_le_succ h₁))
          (le_trans hd (Nat.le_of_succ_le_succ h₂))

/-- Unfolding equation for chunked on a nonempty list with a positive
chunk size. -/
theorem chunked_cons (n : Nat) (hn : n ≠ 0) (x : α) (xs : List α) :
    chunked n (x :: xs) = (x :: xs).take n :: chunked n ((x :: xs).drop n) := by
  unfold chunked
  rw [if_neg hn, if_neg hn]
  show chunkedF n (xs.length + 1) (x :: xs)
      = (x :: xs).take n :: chunkedF n ((x :: xs).drop n).length ((x :: xs).drop n)
  simp only [chunkedF]
  congr 1
  apply chunkedF_fuel n hn
  · simp only [List.length_drop, List.length_cons]
    omega
  · exact le_rfl

/-- Concatenating the chunks recovers the list, for positive chunk
sizes. -/
theorem chunked_flatten (n : Nat) (hn : n ≠ 0) (xs : List α) :
    (chunked n xs).flatten = xs := by
  suffices h : ∀ (k : Nat) (ys : List α), ys.length ≤ k → (chunked n ys).flatten = ys from
    h xs.length xs le_rfl
  intro k
  induction k with
  | zero =>
    intro ys hk
    have : ys = [] := List.length_eq_zero.mp (Nat.le_zero.mp hk)
    subst this
    simp [chunked, chunkedF]
  | succ k ih =>
    intro ys hk
    cases ys with
    | nil => simp [chunked, chunkedF]
    | cons x t =>
      rw [chunked_cons n hn, List.flatten_cons, ih ((x :: t).drop n) ?_]
      · exact List.take_append_drop n (x :: t)
      · simp only [List.length_drop, List.length_cons]
        simp only [List.length_cons] at hk
        omega

/-- Every chunk delivered by chunked is nonempty. -/
theorem chunked_mem_ne_nil (n : Nat) (xs : List α) (c : List α)
    (hc : c ∈ chunked n xs) : c ≠ [] := by
  by_cases hn : n = 0
  · subst hn
    simp [chunked] at hc
  · suffices h : ∀ (k : Nat) (ys : List α), ys.length ≤ k → c ∈ chunked n ys → c ≠ [] from
      h xs.length xs le_rfl hc
    intro k
    induction k with
    | zero =>
      intro ys hk hm
      have : ys = [] := List.length_eq_zero.mp (Nat.le_zero.mp hk)
      subst this
      simp [chunked, chunkedF] at hm
    | succ k ih =>
      intro ys hk hm
      cases ys with
      | nil => simp [chunked, chunkedF] at hm
      | cons x t =>
        rw [chunked_cons n hn] at hm
        rcases List.mem_cons.mp hm with rfl | hm
        · cases n with
          | zero => exact absurd rfl hn
          | succ m => simp
        · refine ih ((x :: t).drop n) ?_ hm
          simp only [List.length_drop, List.length_cons]
          simp only [List.length_cons] at hk
          omega

/-- gather over always-succeeding posts returns the mapped list. -/
theorem gather_posts_ok (f : RABase → A) (l : List RABase) :
    gather_posts (fun x => Except.ok (f x)) l = .ok (l.map f) := by
  induction l with
  | nil => rfl
  | cons x xs ih => simp [gather_posts, ih]

/-- Reading a mapped-ok task list at an in-range index yields ok of the
underlying value. -/
theorem getD_map_ok (vals : List (List A)) (i : Nat) (hi : i < vals.length)
    (e : Except ClientError (List A)) :
    (vals.map Except.ok).getD i e = .ok (vals.getD i []) := by
  rw [List.getD_eq_getElem?_getD, List.getElem?_map, List.getD_eq_getElem?_getD]
  rw [List.getElem?_eq_getElem hi]
  simp

/-- Reading back every position of a list through getD over its range
recovers the list. -/
theorem map_getD_range (d : A) (l : List A) :
    (List.range l.length).map (fun i => l.getD i d) = l := by
  induction l with
  | nil => rfl
  | cons x t ih =>
    show (List.range (t.length + 1)).map (fun i => (x :: t).getD i d) = x :: t
    rw [List.range_succ_eq_map]
    simp only [List.map_cons, List.getD_cons_zero, List.map_map]
    have hc : ((fun i => (x :: t).getD i d) ∘ Nat.succ) = fun i => t.getD i d := by
      funext i
      simp [List.getD_cons_succ]
    rw [hc, ih]

/-- Draining all-ok tasks in an in-range completion order returns the
concatenation of the chunk results in that order. -/
theorem drain_tasks_ok (vals : List (List A)) (order : List Nat)
    (h : ∀ i ∈ order, i < vals.length) :
    drain_tasks (vals.map Except.ok) order
      = .ok ((order.map (fun i => vals.getD i [])).flatten) := by
  induction order with
  | nil => rfl
  | cons i rest ih =>
    have hi : i < vals.length := h i (List.mem_cons_self i rest)
    simp only [drain_tasks, getD_map_ok vals i hi,
      ih (fun j hj => h j (List.mem_cons_of_mem i hj))]
    simp

/-- Draining all-ok tasks along a permutation of all task indices yields a
permutation of the concatenation of all chunk results. -/
theorem drain_tasks_perm (vals : List (List A)) (order : List Nat)
    (hp : List.Perm order (List.range vals.length)) :
    ∃ w, drain_tasks (vals.map Except.ok) order = .ok w ∧
         List.Perm w vals.flatten := by
  have hmem : ∀ i ∈ order, i < vals.length := by
    intro i hi
    exact List.mem_range.mp (hp.mem_iff.mp hi)
  refine ⟨_, drain_tasks_ok vals order hmem, ?_⟩
  have h1 : List.Perm ((order.map (fun i => vals.getD i [])).flatten)
      (((List.range vals.length).map (fun i => vals.getD i [])).flatten) :=
    (hp.map _).flatten
  rwa [map_getD_range] at h1

/-- Every task index appearing in a successfully drained completion order
refers to a task that returned ok. -/
theorem drain_tasks_ok_inv (tasks : List (Except ClientError (List A))) (order : List Nat)
    (rs : List A) (h : drain_tasks tasks order = .ok rs) :
    ∀ i ∈ order, ∃ v, tasks.getD i (.error .indexOutOfRange) = .ok v := by
  induction order generalizing rs with
  | nil => intro i hi; simp at hi
  | cons j rest ih =>
    intro i hi
    simp only [drain_tasks] at h
    rcases hg : tasks.getD j (.error .indexOutOfRange) with e | r
    · rw [hg] at h
      exact absurd h (by simp)
    · rw [hg] at h
      rcases hr : drain_tasks tasks rest with e | rs2
      · rw [hr] at h
        exact absurd h (by simp)
      · rcases List.mem_cons.mp hi with rfl | hi
        · exact ⟨r, hg⟩
        · exact ih rs2 hr i hi

/-- A drain that raised obtained its exception from one of its tasks, as
long as the completion order stays in range. -/
theorem drain_tasks_err_inv (tasks : List (Except ClientError (List A))) (order : List Nat)
    (e : ClientError) (hbound : ∀ i ∈ order, i < tasks.length)
    (h : drain_tasks tasks order = .error e) :
    ∃ t ∈ tasks, t = .error e := by
  induction order with
  | nil => exact absurd h (by simp [drain_tasks])
  | cons j rest ih =>
    have hj : j < tasks.length := hbound j (List.mem_cons_self j rest)
    simp only [drain_tasks] at h
    rcases hg : tasks.getD j (.error .indexOutOfRange) with e' | r
    · rw [hg] at h
      have he : e' = e := by simpa using h
      refine ⟨tasks.getD j (.error .indexOutOfRange), ?_, by rw [hg, he]⟩
      rw [List.getD_eq_getElem?_getD, List.getElem?_eq_getElem hj]
      exact List.getElem_mem hj
    · rw [hg] at h
      rcases hr : drain_tasks tasks rest with e'' | rs2
      · rw [hr] at h
        have he : e'' = e := by simpa using h
        subst he
        exact ih (fun i hi => hbound i (List.mem_cons_of_mem j hi)) hr
      · rw [hr] at h
        exact absurd h (by simp)

/-- On a ready chunk with always-succeeding posts and an open session,
_submit_chunk returns the per-object results in chunk order and POSTs
exactly the chunk members. -/
theorem submit_chunk_ok (sid : ClientSession) (pm : MOType → Option String)
    (f : RABase → A) (c : List RABase) (hc : chunk_ready pm c) :
    submit_chunk (some sid) pm (fun x => Except.ok (f x)) c = (.ok (c.map f), c) := by
  cases c with
  | nil => exact absurd hc (by simp [chunk_ready])
  | cons x rest =>
    obtain ⟨hhom, hsome⟩ := hc
    have hall : (x :: rest).all (fun o => o.typ == x.typ) = true := by
      simp only [List.all_eq_true, beq_iff_eq]
      exact hhom
    simp only [submit_chunk, hall, if_pos, hsome]
    simp [post_to_backend, verify_session, gather_posts_ok]

/-- A successful _submit_chunk implies every chunk member has a path-map
entry. -/
theorem submit_chunk_ok_inv (session : Option ClientSession) (pm : MOType → Option String)
    (post : RABase → Except ClientError A) (c : List RABase) (v : List A)
    (h : (submit_chunk session pm post c).1 = .ok v) :
    ∀ x ∈ c, (pm x.typ).isSome := by
  cases c with
  | nil => exact absurd h (by simp [submit_chunk])
  | cons x rest =>
    by_cases hall : (x :: rest).all (fun o => o.typ == x.typ) = true
    · by_cases hsome : (pm x.typ).isSome = true
      · intro y hy
        have hy' : y.typ = x.typ := by
          have := List.all_eq_true.mp hall y hy
          simpa using this
        rw [hy']
        exact hsome
      · simp only [submit_chunk, hall, if_pos, hsome, if_neg] at h
        exact absurd h (by simp)
    · simp only [submit_chunk, hall, if_neg] at h
      exact absurd h (by simp)

/-- With always-succeeding posts, an open session, and a nonempty
type-homogeneous chunk, a failing _submit_chunk can only have raised the
unknown-type error. -/
theorem submit_chunk_err_shape (sid : ClientSession) (pm : MOType → Option String)
    (f : RABase → A) (c : List RABase) (hne : c ≠ [])
    (hhom : ∀ x ∈ c, ∀ y ∈ c, x.typ = y.typ) (e : ClientError)
    (h : (submit_chunk (some sid) pm (fun x => Except.ok (f x)) c).1 = .error e) :
    ∃ n, e = .unknownType n := by
  cases c with
  | nil => exact absurd rfl hne
  | cons x rest =>
    have hall : (x :: rest).all (fun o => o.typ == x.typ) = true := by
      simp only [List.all_eq_true, beq_iff_eq]
      intro y hy
      exact hhom y hy x (List.mem_cons_self x rest)
    by_cases hsome : (pm x.typ).isSome = true
    · simp only [submit_chunk, hall, if_pos, hsome] at h
      simp [post_to_backend, verify_session, gather_posts_ok] at h
    · simp only [submit_chunk, hall, if_pos, hsome, if_neg] at h
      exact ⟨x.typ.typeName, by simpa using h.symm⟩

/-- The objects POSTed by one _submit_chunk call always carry a mapped
type: the fail-closed lookup precedes every POST of the chunk. -/
theorem submit_chunk_posts_mapped (session : Option ClientSession)
    (pm : MOType → Option String) (post : RABase → Except ClientError A)
    (c : List RABase) :
    ((submit_chunk session pm post c).2).all (fun o => (pm o.typ).isSome) = true := by
  cases c with
  | nil => rfl
  | cons x rest =>
    by_cases hall : (x :: rest).all (fun o => o.typ == x.typ) = true
    · by_cases hsome : (pm x.typ).isSome = true
      · simp only [submit_chunk, hall, if_pos, hsome]
        cases session with
        | none => rfl
        | some s =>
          simp only [post_to_backend, verify_session, List.all_eq_true]
          intro y hy
          have hy' : y.typ = x.typ := by
            have := List.all_eq_true.mp hall y hy
            simpa using this
          rw [hy']
          exact hsome
      · simp [submit_chunk, hall, hsome]
    · simp [submit_chunk, hall]

/-- A group of ready chunks with always-succeeding posts drains to a
permutation of the mapped group members and POSTs exactly the group
members. -/
theorem run_group_ok (sid : ClientSession) (pm : MOType → Option String)
    (f : RABase → A) (chunks : List (List RABase)) (order : List Nat)
    (hready : ∀ c ∈ chunks, chunk_ready pm c)
    (hord : List.Perm order (List.range chunks.length)) :
    ∃ w, run_group (some sid) pm (fun x => Except.ok (f x)) chunks order
        = (.ok w, chunks.flatten) ∧
      List.Perm w ((chunks.flatten).map f) := by
  have hfst : (chunks.map (fun c => submit_chunk (some sid) pm (fun x => Except.ok (f x)) c)).map Prod.fst
      = (chunks.map (fun c => c.map f)).map Except.ok := by
    rw [List.map_map, List.map_map]
    apply List.map_congr_left
    intro c hc
    simp [Function.comp, submit_chunk_ok sid pm f c (hready c hc)]
  have hsnd : (chunks.map (fun c => submit_chunk (some sid) pm (fun x => Except.ok (f x)) c)).map Prod.snd
      = chunks := by
    rw [List.map_map]
    have : ∀ c ∈ chunks,
        (Prod.snd ∘ fun c => submit_chunk (some sid) pm (fun x => Except.ok (f x)) c) c = id c := by
      intro c hc
      simp [Function.comp, submit_chunk_ok sid pm f c (hready c hc)]
    rw [List.map_congr_left this, List.map_id]
  have hlen : (chunks.map (fun c => c.map f)).length = chunks.length := List.length_map ..
  obtain ⟨w, hw, hperm⟩ :=
    drain_tasks_perm (chunks.map (fun c => c.map f)) order (by rwa [hlen])
  refine ⟨w, ?_, ?_⟩
  · simp only [run_group]
    rw [hfst, hsnd, hw]
  · rw [← List.map_flatten] at hperm
    exact hperm

/-- Draining a list of ready groups with always-succeeding posts yields,
group by group in group order, one portion per group that is a permutation
of the mapped members of that group; the POST log is the whole input. -/
theorem run_groups_ok (sid : ClientSession) (pm : MOType → Option String)
    (f : RABase → A) (gss : List (List (List RABase))) (orders : List (List Nat))
    (hready : ∀ g ∈ gss, ∀ c ∈ g, chunk_ready pm c)
    (hord : orders_ok orders (gss.map List.length) = true) :
    ∃ portions : List (List A),
      run_groups (some sid) pm (fun x => Except.ok (f x)) gss orders
        = (.ok portions.flatten, (gss.map List.flatten).flatten) ∧
      List.Forall₂ (fun w g => List.Perm w ((List.flatten g).map f)) portions gss := by
  induction gss generalizing orders with
  | nil => exact ⟨[], rfl, List.Forall₂.nil⟩
  | cons g gs ih =>
    cases orders with
    | nil => simp [orders_ok] at hord
    | cons o os =>
      simp only [List.map_cons, orders_ok, Bool.and_eq_true, decide_eq_true_eq] at hord
      obtain ⟨ho, hos⟩ := hord
      obtain ⟨w, hw, hwperm⟩ :=
        run_group_ok sid pm f g o (fun c hc => hready g (List.mem_cons_self g gs) c hc) ho
      obtain ⟨ps, hps, hpsf⟩ :=
        ih os (fun g' hg' c hc => hready g' (List.mem_cons_of_mem g hg') c hc) hos
      refine ⟨w :: ps, ?_, List.Forall₂.cons hwperm hpsf⟩
      simp only [run_groups, List.headD_cons, List.tail_cons]
      rw [hw, hps]
      simp [List.flatten_cons]

/-- A run of the group loop that returned ok had every chunk of every
group return ok, as long as each group completion order covers the whole
group. -/
theorem run_groups_ok_inv (session : Option ClientSession) (pm : MOType → Option String)
    (post : RABase → Except ClientError A) (gss : List (List (List RABase)))
    (orders : List (List Nat)) (rs : List A)
    (hord : orders_ok orders (gss.map List.length) = true)
    (h : (run_groups session pm post gss orders).1 = .ok rs) :
    ∀ g ∈ gss, ∀ c ∈ g, ∃ v, (submit_chunk session pm post c).1 = .ok v := by
  induction gss generalizing orders rs with
  | nil => intro g hg; simp at hg
  | cons g gs ih =>
    cases orders with
    | nil => simp [orders_ok] at hord
    | cons o os =>
      simp only [List.map_cons, orders_ok, Bool.and_eq_true, decide_eq_true_eq] at hord
      obtain ⟨ho, hos⟩ := hord
      simp only [run_groups, List.headD_cons, List.tail_cons] at h
      rcases hp : run_group session pm post g o with ⟨p1, p2⟩
      rw [hp] at h
      cases p1 with
      | error e => exact absurd h (by simp)
      | ok w =>
        rcases hq : run_groups session pm post gs os with ⟨q1, q2⟩
        rw [hq] at h
        cases q1 with
        | error e => exact absurd h (by simp)
        | ok ws =>
          intro g' hg' c hc
          rcases List.mem_cons.mp hg' with rfl | hg'
          · -- chunk of the head group: read off the drained tasks
            have hp1 : (run_group session pm post g' o).1 = .ok w := by rw [hp]
            simp only [run_group] at hp1
            obtain ⟨j, hj, hcj⟩ := List.mem_iff_getElem.mp hc
            have hmem : j ∈ o := by
              have : j ∈ List.range g'.length := List.mem_range.mpr hj
              exact (ho.mem_iff).mpr this
            obtain ⟨v, hv⟩ := drain_tasks_ok_inv _ o w hp1 j hmem
            refine ⟨v, ?_⟩
            rw [List.getD_eq_getElem?_getD] at hv
            rw [List.getElem?_map, List.getElem?_map] at hv
            rw [List.getElem?_eq_getElem hj] at hv
            simpa [hcj] using hv
          · exact ih os ws hos (by rw [hq]) g' hg' c hc

/-- A failing run of the group loop over nonempty type-homogeneous chunks
with always-succeeding posts and an open session can only have raised the
unknown-type error. -/
theorem run_groups_err_shape (sid : ClientSession) (pm : MOType → Option String)
    (f : RABase → A) (gss : List (List (List RABase))) (orders : List (List Nat))
    (e : ClientError)
    (hne : ∀ g ∈ gss, ∀ c ∈ g, c ≠ [])
    (hhom : ∀ g ∈ gss, ∀ c ∈ g, ∀ x ∈ c, ∀ y ∈ c, x.typ = y.typ)
    (hord : orders_ok orders (gss.map List.length) = true)
    (h : (run_groups (some sid) pm (fun x => Except.ok (f x)) gss orders).1 = .error e) :
    ∃ n, e = .unknownType n := by
  induction gss generalizing orders with
  | nil => exact absurd h (by simp [run_groups])
  | cons g gs ih =>
    cases orders with
    | nil => simp [orders_ok] at hord
    | cons o os =>
      simp only [List.map_cons, orders_ok, Bool.and_eq_true, decide_eq_true_eq] at hord
      obtain ⟨ho, hos⟩ := hord
      simp only [run_groups, List.headD_cons, List.tail_cons] at h
      rcases hp : run_group (some sid) pm (fun x => Except.ok (f x)) g o with ⟨p1, p2⟩
      rw [hp] at h
      cases p1 with
      | error e' =>
        have he : e' = e := by simpa using h
        subst he
        have hp1 : (run_group (some sid) pm (fun x => Except.ok (f x)) g o).1 = .error e' := by
          rw [hp]
        simp only [run_group] at hp1
        have hbound : ∀ i ∈ o, i < ((g.map (fun c =>
            submit_chunk (some sid) pm (fun x => Except.ok (f x)) c)).map Prod.fst).length := by
          intro i hi
          have : i ∈ List.range g.length := (ho.mem_iff).mp hi
          simpa using List.mem_range.mp this
        obtain ⟨t, ht, hterr⟩ := drain_tasks_err_inv _ o e' hbound hp1
        rw [List.map_map] at ht
        rw [List.mem_map] at ht
        obtain ⟨c, hc, hct⟩ := ht
        have hcg : c ∈ g := hc
        refine submit_chunk_err_shape sid pm f c
          (hne g (List.mem_cons_self g gs) c hcg)
          (hhom g (List.mem_cons_self g gs) c hcg) e' ?_
        rw [← hterr, ← hct]
        rfl
      | ok w =>
        rcases hq : run_groups (some sid) pm (fun x => Except.ok (f x)) gs os with ⟨q1, q2⟩
        rw [hq] at h
        cases q1 with
        | error e' =>
          have he : e' = e := by simpa using h
          subst he
          exact ih os (fun g' hg' => hne g' (List.mem_cons_of_mem g hg'))
            (fun g' hg' => hhom g' (List.mem_cons_of_mem g hg')) hos (by rw [hq])
        | ok ws => exact absurd h (by simp)

/-- Objects POSTed while draining one group always carry a mapped type. -/
theorem run_group_posts_mapped (session : Option ClientSession) (pm : MOType → Option String)
    (post : RABase → Except ClientError A) (chunks : List (List RABase)) (order : List Nat) :
    ((run_group session pm post chunks order).2).all (fun o => (pm o.typ).isSome) = true := by
  simp only [run_group, List.map_map, List.all_eq_true]
  intro o ho
  rw [List.mem_flatten] at ho
  obtain ⟨s, hs, hos⟩ := ho
  rw [List.mem_map] at hs
  obtain ⟨c, hc, rfl⟩ := hs
  have hall := submit_chunk_posts_mapped session pm post c
  exact List.all_eq_true.mp hall o (by simpa using hos)

/-- Objects POSTed by the whole group loop always carry a mapped type. -/
theorem run_groups_posts_mapped (session : Option ClientSession) (pm : MOType → Option String)
    (post : RABase → Except ClientError A) (gss : List (List (List RABase)))
    (orders : List (List Nat)) :
    ((run_groups session pm post gss orders).2).all (fun o => (pm o.typ).isSome) = true := by
  induction gss generalizing orders with
  | nil => rfl
  | cons g gs ih =>
    simp only [run_groups]
    rcases hp : run_group session pm post g (orders.headD (List.range g.length)) with ⟨p1, p2⟩
    have hp2 : p2.all (fun o => (pm o.typ).isSome) = true := by
      have := run_group_posts_mapped session pm post g (orders.headD (List.range g.length))
      rw [hp] at this
      exact this
    cases p1 with
    | error e => simpa using hp2
    | ok rs =>
      rcases hq : run_groups session pm post gs orders.tail with ⟨q1, q2⟩
      have hq2 : q2.all (fun o => (pm o.typ).isSome) = true := by
        have := ih orders.tail
        rw [hq] at this
        exact this
      cases q1 with
      | error e => simp [List.all_append, hp2, hq2]
      | ok rs2 => simp [List.all_append, hp2, hq2]

/-- No object of an unmapped type is ever POSTed by _submit_payloads: the
fail-closed path-map lookup of each chunk precedes every POST of that
chunk. -/
theorem submit_payloads_posts_mapped (cs : Nat) (session : Option ClientSession)
    (pm : MOType → Option String) (post : RABase → Except ClientError A)
    (objs : List RABase) (orders : List (List Nat)) :
    ((submit_payloads cs session pm post objs orders).posts).all
      (fun o => (pm o.typ).isSome) = true := by
  simp only [submit_payloads]
  by_cases hg : (((groupbyRuns raTypeName objs).map (fun p => (p.1, chunked cs p.2))).all
      (fun p => p.2.isEmpty)) = true
  · simp [hg]
  · simp only [Bool.not_eq_true] at hg
    simp only [hg]
    simp only [Bool.false_eq_true, if_false]
    exact run_groups_posts_mapped session pm post _ orders

/-- On a nonempty input with a positive chunk size, _submit_payloads opens
the progress display and delegates to the group loop. -/
theorem submit_payloads_run (cs : Nat) (hcs : cs ≠ 0) (session : Option ClientSession)
    (pm : MOType → Option String) (post : RABase → Except ClientError A)
    (objs : List RABase) (hne : objs ≠ []) (orders : List (List Nat)) :
    submit_payloads cs session pm post objs orders
      = ⟨(run_groups session pm post
            ((groupbyRuns raTypeName objs).map (fun p => chunked cs p.2)) orders).1,
         true,
         (run_groups session pm post
            ((groupbyRuns raTypeName objs).map (fun p => chunked cs p.2)) orders).2⟩ := by
  obtain ⟨x, xs, rfl⟩ : ∃ x xs, objs = x :: xs := by
    cases objs with
    | nil => exact absurd rfl hne
    | cons x xs => exact ⟨x, xs, rfl⟩
  simp only [submit_payloads]
  have hguard : (((groupbyRuns raTypeName (x :: xs)).map (fun p => (p.1, chunked cs p.2))).all
      (fun p => p.2.isEmpty)) = false := by
    obtain ⟨u, hu⟩ := groupbyAux_fst_cons raTypeName x xs
    simp only [groupbyRuns, List.map_cons, List.all_cons]
    rw [hu, chunked_cons cs hcs]
    simp
  simp only [hguard, Bool.false_eq_true, if_false]
  rw [List.map_map]
  rfl

/-- Clash-free inputs: equal type names imply equal runtime types. -/
theorem no_name_clash_spec (objs : List RABase) (h : no_name_clash objs = true) :
    ∀ x ∈ objs, ∀ y ∈ objs, raTypeName x = raTypeName y → x.typ = y.typ := by
  intro x hx y hy hk
  have h1 := List.all_eq_true.mp h x hx
  have h2 := List.all_eq_true.mp h1 y hy
  simp only [Bool.or_eq_true, bne_iff_ne, ne_eq, beq_iff_eq] at h2
  rcases h2 with h2 | h2
  · exact absurd hk h2
  · exact h2

/-- Membership transfer: every member of a chunk of a group is a member of
that group, and every member of a group is a member of the input. -/
theorem chunk_mem_objs (cs : Nat) (hcs : cs ≠ 0) (objs : List RABase)
    (p : String × List RABase) (hp : p ∈ groupbyRuns raTypeName objs)
    (c : List RABase) (hc : c ∈ chunked cs p.2) :
    (∀ y ∈ c, y ∈ p.2) ∧ ∀ y ∈ p.2, y ∈ objs := by
  constructor
  · intro y hy
    rw [← chunked_flatten cs hcs p.2]
    exact List.mem_flatten.mpr ⟨c, hc, hy⟩
  · intro y hy
    rw [← groupbyRuns_flatten raTypeName objs]
    exact List.mem_flatten.mpr ⟨p.2, List.mem_map_of_mem Prod.snd hp, hy⟩

/-- On a clash-free input whose types are all mapped, every chunk of every
group is ready for submission. -/
theorem chunks_ready_of (pm : MOType → Option String) (cs : Nat) (hcs : cs ≠ 0)
    (objs : List RABase) (hclash : no_name_clash objs = true)
    (hmap : objs.all (fun x => (pm x.typ).isSome) = true) :
    ∀ g ∈ (groupbyRuns raTypeName objs).map (fun p => chunked cs p.2),
      ∀ c ∈ g, chunk_ready pm c := by
  intro g hg c hc
  rw [List.mem_map] at hg
  obtain ⟨p, hp, rfl⟩ := hg
  obtain ⟨hpne, hphomog⟩ := groupbyRuns_key raTypeName objs p hp
  obtain ⟨hsub, hmemobjs⟩ := chunk_mem_objs cs hcs objs p hp c hc
  have hcne := chunked_mem_ne_nil cs p.2 c hc
  cases c with
  | nil => exact absurd rfl hcne
  | cons y rest =>
    have hyobjs : y ∈ objs := hmemobjs y (hsub y (List.mem_cons_self y rest))
    constructor
    · intro z hz
      have hzobjs : z ∈ objs := hmemobjs z (hsub z hz)
      apply no_name_clash_spec objs hclash z hzobjs y hyobjs
      rw [hphomog z (hsub z hz), hphomog y (hsub y (List.mem_cons_self y rest))]
    · have := List.all_eq_true.mp hmap y hyobjs
      simpa using this

/-- Pointwise permutations between portions and mapped groups yield a
permutation between the flattened result and the mapped flattened input. -/
theorem forall₂_perm_flatten (f : RABase → A) (portions : List (List A))
    (gs : List (List RABase))
    (h : List.Forall₂ (fun w g => List.Perm w (g.map f)) portions gs) :
    List.Perm portions.flatten ((gs.flatten).map f) := by
  induction h with
  | nil => rfl
  | cons hwg hrest ih =>
    simp only [List.flatten_cons, List.map_append]
    exact hwg.append ih

/-- C1: the claim that _submit_payloads groups all elements of one runtime
type into one group regardless of their position in the input is false on
the code: on the interleaved input exC1 the unsorted itertools.groupby
splits the two Employee objects into two distinct groups, and no group
holds all Employee elements. -/
theorem claim_C1_counterexample :
    (groupbyRuns raTypeName exC1).countP (fun p => p.1 == "Employee") = 2 ∧
    ¬ ∃ p ∈ groupbyRuns raTypeName exC1,
        ∀ x ∈ exC1, raTypeName x = "Employee" → x ∈ p.2 := by
  exact ⟨by decide, by decide⟩

/-- C1 (amended): _submit_payloads groups the input into maximal runs of
consecutive elements of equal runtime type name: the groups concatenate
back to the input in order, every group is nonempty and homogeneous in
type name, and adjacent groups carry different names; elements of one type
that are not adjacent in the input therefore land in distinct groups. -/
theorem claim_C1_amended (objs : List RABase) :
    (((groupbyRuns raTypeName objs).map Prod.snd).flatten) = objs ∧
    ((groupbyRuns raTypeName objs).all
      (fun p => !p.2.isEmpty && p.2.all (fun x => raTypeName x == p.1))) = true ∧
    adjacent_differ ((groupbyRuns raTypeName objs).map Prod.fst) = true := by
  refine ⟨groupbyRuns_flatten raTypeName objs, ?_, groupbyRuns_adjacent raTypeName objs⟩
  rw [List.all_eq_true]
  intro p hp
  obtain ⟨hne, hk⟩ := groupbyRuns_key raTypeName objs p hp
  have h1 : p.2.isEmpty = false := by
    cases hq : p.2 with
    | nil => exact absurd hq hne
    | cons a l => rfl
  rw [Bool.and_eq_true]
  constructor
  · rw [h1]
    rfl
  · rw [List.all_eq_true]
    intro z hz
    simpa using hk z hz

/-- C2: the claim that an application-level 4xx/5xx response is never
retried and is surfaced immediately as a BackendValidationError is false
on the code: against respC2 the first attempt is answered 422 with a
description, yet the call is retried and returns the success of the second
attempt instead of surfacing the validation error. -/
theorem claim_C2_counterexample :
    post_single_to_backend (some ⟨0⟩) mo_path_map .Employee respC2
      = .ok ⟨none, ("created")⟩ ∧
    post_single_to_backend (some ⟨0⟩) mo_path_map .Employee respC2
      ≠ .error (.backendValidation ("bad request")) := by
  exact ⟨by decide, by decide⟩

/-- C2 (amended): the retry decorator of _post_single_to_backend (7
attempts, wait_exponential multiplier 2 and floor 1) retries every
exception of an attempt, including the HTTP-error exception raised for a
4xx/5xx response after its message is replaced by the description field:
an HTTP error response followed by a success is retried through to the
success, and a persistent HTTP error response surfaces only after all 7
attempts, wrapped as RetryError around the BackendValidationError. -/
theorem claim_C2_amended (sid : ClientSession) (s : Nat) (body1 body2 : Json)
    (rest : Nat → HttpReply) (msg raw : String) :
    post_single_to_backend (some sid) mo_path_map .Employee
      (fun k => if k = 1 then .reply (400 + s) body1
                else if k = 2 then .reply 200 body2 else rest k) = .ok body2 ∧
    post_single_to_backend (some sid) mo_path_map .Employee
      (fun _ => .reply (400 + s) ⟨some msg, raw⟩)
      = .error (.retryExhausted (.backendValidation msg)) := by
  constructor
  · obtain ⟨dsc, r⟩ := body1
    cases dsc <;>
      simp [post_single_to_backend, tenacity_retry, retryLoop, post_single_attempt,
        verify_session, mo_path_map, Nat.le_add_right]
  · simp [post_single_to_backend, tenacity_retry, retryLoop, post_single_attempt,
      verify_session, mo_path_map, Nat.le_add_right]

/-- C3: the claim that one single completion-order iterator drains all
chunk tasks across all types is false on the code: the drain runs per type
group, groups strictly in order, so on exC3 the OrganisationUnit result
can never precede the Employee result, while the claimed single iterator
admits the completion order in which it does. -/
theorem claim_C3_counterexample :
    (submit_payloads 1 (some ⟨0⟩) mo_path_map (fun x => Except.ok x) exC3
        [[0], [0]]).result = .ok [objE1, objO1] ∧
    submit_payloads_single_iter 1 (some ⟨0⟩) mo_path_map (fun x => Except.ok x) exC3 [1, 0]
      = .ok [objO1, objE1] ∧
    (Except.ok [objE1, objO1] : Except ClientError (List RABase)) ≠ .ok [objO1, objE1] := by
  exact ⟨by decide, by decide, by decide⟩

/-- C3 (amended): chunk tasks are drained by a completion-order iterator
per type group, the groups being processed sequentially in group order:
when every submission succeeds, the aggregate list is the concatenation,
in group order, of one portion per type group, each portion being some
permutation (that group completion order) of the results for that group
members. -/
theorem claim_C3_amended (A : Type) (cs : Nat) (sid : ClientSession)
    (pm : MOType → Option String) (f : RABase → A) (objs : List RABase)
    (orders : List (List Nat))
    (hne : objs ≠ []) (hcs : cs ≠ 0)
    (hclash : no_name_clash objs = true)
    (hmap : objs.all (fun x => (pm x.typ).isSome) = true)
    (hord : orders_ok orders (chunk_counts cs objs) = true) :
    ∃ portions : List (List A),
      (submit_payloads cs (some sid) pm (fun x => Except.ok (f x)) objs orders).result
        = .ok portions.flatten ∧
      List.Forall₂ (fun w p => List.Perm w (p.2.map f)) portions
        (groupbyRuns raTypeName objs) := by
  rw [submit_payloads_run cs hcs (some sid) pm _ objs hne orders]
  have hord' : orders_ok orders
      (((groupbyRuns raTypeName objs).map (fun p => chunked cs p.2)).map List.length)
        = true := by
    rw [List.map_map]
    simpa [Function.comp, chunk_counts] using hord
  obtain ⟨portions, hrun, hfa⟩ := run_groups_ok sid pm f _ orders
    (chunks_ready_of pm cs hcs objs hclash hmap) hord'
  refine ⟨portions, by rw [hrun], ?_⟩
  have hfa2 := List.forall₂_map_right_iff.mp hfa
  apply List.Forall₂.imp ?_ hfa2
  intro w p h
  rwa [chunked_flatten cs hcs] at h

/-- C4: the claim that a 422 answer with body description invalid uuid
makes _post_single_to_backend fail with a BackendValidationError whose
message equals invalid uuid is false as stated: the surfaced failure is
the retry wrapper RetryError wrapping that BackendValidationError. -/
theorem claim_C4_counterexample :
    post_single_to_backend (some ⟨0⟩) mo_path_map .Employee respC4
      = .error (.retryExhausted (.backendValidation ("invalid uuid"))) ∧
    post_single_to_backend (some ⟨0⟩) mo_path_map .Employee respC4
      ≠ .error (.backendValidation ("invalid uuid")) := by
  exact ⟨by decide, by decide⟩

/-- C4 (amended): against a backend answering every attempt with HTTP 422
and the JSON body carrying description invalid uuid, each attempt of
_post_single_to_backend raises a BackendValidationError whose message
equals invalid uuid, and the decorated call fails with RetryError wrapping
that BackendValidationError. -/
theorem claim_C4_amended :
    post_single_attempt (some ⟨0⟩) mo_path_map .Employee (respC4 1)
      = .error (.backendValidation ("invalid uuid")) ∧
    post_single_to_backend (some ⟨0⟩) mo_path_map .Employee respC4
      = .error (.retryExhausted (.backendValidation ("invalid uuid"))) := by
  exact ⟨by decide, by decide⟩

/-- C5: an input containing an object whose runtime type has no path-map
entry makes _submit_payloads fail with the unknown-type error, and no
object of an unmapped type is ever POSTed: the fail-closed lookup of each
chunk precedes every POST of that chunk. -/
theorem claim_C5 (A : Type) (cs : Nat) (sid : ClientSession)
    (pm : MOType → Option String) (f : RABase → A) (objs : List RABase)
    (orders : List (List Nat))
    (hcs : cs ≠ 0)
    (hclash : no_name_clash objs = true)
    (hord : orders_ok orders (chunk_counts cs objs) = true)
    (hx : objs.any (fun x => (pm x.typ).isNone) = true) :
    (∃ n, (submit_payloads cs (some sid) pm (fun x => Except.ok (f x)) objs orders).result
        = .error (.unknownType n)) ∧
    ((submit_payloads cs (some sid) pm (fun x => Except.ok (f x)) objs orders).posts).all
        (fun o => (pm o.typ).isSome) = true := by
  obtain ⟨x₀, hx₀, hx₀n⟩ := List.any_eq_true.mp hx
  have hne : objs ≠ [] := by
    intro h
    rw [h] at hx₀
    simp at hx₀
  refine ⟨?_, submit_payloads_posts_mapped cs (some sid) pm _ objs orders⟩
  rw [submit_payloads_run cs hcs (some sid) pm _ objs hne orders]
  have hord' : orders_ok orders
      (((groupbyRuns raTypeName objs).map (fun p => chunked cs p.2)).map List.length)
        = true := by
    rw [List.map_map]
    simpa [Function.comp, chunk_counts] using hord
  have hneC : ∀ g ∈ (groupbyRuns raTypeName objs).map (fun p => chunked cs p.2),
      ∀ c ∈ g, c ≠ [] := by
    intro g hg c hc
    rw [List.mem_map] at hg
    obtain ⟨p, hp, rfl⟩ := hg
    exact chunked_mem_ne_nil cs p.2 c hc
  have hhomC : ∀ g ∈ (groupbyRuns raTypeName objs).map (fun p => chunked cs p.2),
      ∀ c ∈ g, ∀ a ∈ c, ∀ b ∈ c, a.typ = b.typ := by
    intro g hg c hc a ha b hb
    rw [List.mem_map] at hg
    obtain ⟨p, hp, rfl⟩ := hg
    obtain ⟨hsub, hobjs⟩ := chunk_mem_objs cs hcs objs p hp c hc
    obtain ⟨hpne, hphomog⟩ := groupbyRuns_key raTypeName objs p hp
    apply no_name_clash_spec objs hclash a (hobjs a (hsub a ha)) b (hobjs b (hsub b hb))
    rw [hphomog a (hsub a ha), hphomog b (hsub b hb)]
  rcases hres : (run_groups (some sid) pm (fun x => Except.ok (f x))
      ((groupbyRuns raTypeName objs).map (fun p => chunked cs p.2)) orders).1 with e | rs
  · obtain ⟨n, hn⟩ := run_groups_err_shape sid pm f _ orders e hneC hhomC hord' hres
    exact ⟨n, by rw [hres, hn]⟩
  · exfalso
    have hmem : x₀ ∈ (((groupbyRuns raTypeName objs).map Prod.snd).flatten) := by
      rw [groupbyRuns_flatten]
      exact hx₀
    rw [List.mem_flatten] at hmem
    obtain ⟨l, hl, hx₀l⟩ := hmem
    rw [List.mem_map] at hl
    obtain ⟨p, hp, rfl⟩ := hl
    have hcmem : x₀ ∈ (chunked cs p.2).flatten := by
      rw [chunked_flatten cs hcs]
      exact hx₀l
    rw [List.mem_flatten] at hcmem
    obtain ⟨c, hc, hx₀c⟩ := hcmem
    have hg : chunked cs p.2 ∈ (groupbyRuns raTypeName objs).map (fun p => chunked cs p.2) :=
      List.mem_map_of_mem _ hp
    obtain ⟨v, hv⟩ := run_groups_ok_inv (some sid) pm _ _ orders rs hord' hres
      (chunked cs p.2) hg c hc
    have hsome := submit_chunk_ok_inv (some sid) pm _ c v hv x₀ hx₀c
    rw [Option.isNone_iff_eq_none] at hx₀n
    rw [hx₀n] at hsome
    simp at hsome

/-- C6: when every submission succeeds (always-ok posts, open session,
every type mapped), _submit_payloads on a nonempty input returns exactly
one result item per input object: grouping, chunking and draining preserve
the total count. -/
theorem claim_C6 (A : Type) (cs : Nat) (sid : ClientSession)
    (pm : MOType → Option String) (f : RABase → A) (objs : List RABase)
    (orders : List (List Nat))
    (hne : objs ≠ []) (hcs : cs ≠ 0)
    (hclash : no_name_clash objs = true)
    (hmap : objs.all (fun x => (pm x.typ).isSome) = true)
    (hord : orders_ok orders (chunk_counts cs objs) = true) :
    ∃ rs, (submit_payloads cs (some sid) pm (fun x => Except.ok (f x)) objs orders).result
        = .ok rs ∧ rs.length = objs.length := by
  rw [submit_payloads_run cs hcs (some sid) pm _ objs hne orders]
  have hord' : orders_ok orders
      (((groupbyRuns raTypeName objs).map (fun p => chunked cs p.2)).map List.length)
        = true := by
    rw [List.map_map]
    simpa [Function.comp, chunk_counts] using hord
  obtain ⟨portions, hrun, hfa⟩ := run_groups_ok sid pm f _ orders
    (chunks_ready_of pm cs hcs objs hclash hmap) hord'
  refine ⟨portions.flatten, by rw [hrun], ?_⟩
  have hfa2 : List.Forall₂ (fun w g => List.Perm w (g.map f)) portions
      (((groupbyRuns raTypeName objs).map (fun p => chunked cs p.2)).map List.flatten) :=
    List.forall₂_map_right_iff.mpr hfa
  have hgs : (((groupbyRuns raTypeName objs).map (fun p => chunked cs p.2)).map List.flatten)
      = (groupbyRuns raTypeName objs).map Prod.snd := by
    rw [List.map_map]
    apply List.map_congr_left
    intro p hp
    simp [Function.comp, chunked_flatten cs hcs]
  rw [hgs] at hfa2
  have hperm := forall₂_perm_flatten f portions ((groupbyRuns raTypeName objs).map Prod.snd) hfa2
  rw [groupbyRuns_flatten] at hperm
  rw [hperm.length_eq, List.length_map]

/-- C7: however the context scope exits — normal return, early return, or
exception, including a failed health probe — the finally clause clears the
session handle and the async with closes the opened session: the final
state carries no handle, the live-session count is restored, and at no
point during the scope is more than one session live above the initial
count (so at most one session is ever open per fresh client instance). -/
theorem claim_C7 (probe body : Except ClientError Unit) (s : ClientState) :
    (context_run probe body s).1.session = none ∧
    (context_run probe body s).1.liveSessions = s.liveSessions ∧
    (context_states s).all (fun st => st.liveSessions ≤ s.liveSessions + 1) = true := by
  refine ⟨?_, ?_, ?_⟩
  · cases probe <;> rfl
  · cases probe <;>
      simp [context_run, try_finally, async_with, open_session, close_session]
  · simp [context_states, open_session, close_session, Nat.le_succ]

/-- C8: on an empty input collection, _submit_payloads returns the empty
list immediately, issues zero POSTs, and never opens a progress
display. -/
theorem claim_C8 (A : Type) (cs : Nat) (session : Option ClientSession)
    (pm : MOType → Option String) (post : RABase → Except ClientError A)
    (orders : List (List Nat)) :
    submit_payloads cs session pm post [] orders = ⟨.ok [], false, []⟩ := rfl

/-- C9: the claim that every network-requiring operation fails with
NotInitializedError when no session is open is false for the decorated
single-object post: its retry wrapper retries the NotInitializedError of
every attempt and the surfaced failure is RetryError wrapping it, not
NotInitializedError itself. -/
theorem claim_C9_counterexample :
    post_single_to_backend none mo_path_map .Employee (fun _ => .netFail)
      = .error (.retryExhausted .notInitialized) ∧
    post_single_to_backend none mo_path_map .Employee (fun _ => .netFail)
      ≠ .error .notInitialized := by
  exact ⟨by decide, by decide⟩

/-- C9 (amended): with no open session, no operation opens one implicitly:
session acquisition before the health probe fails immediately with
NotInitializedError and issues zero GETs, the chunk post fails immediately
with NotInitializedError and issues zero POSTs, every attempt of the
single-object post raises NotInitializedError, and the decorated
single-object post surfaces RetryError wrapping NotInitializedError after
its 7 attempts. -/
theorem claim_C9_amended (A : Type) (pm : MOType → Option String)
    (probe : ClientSession → Except ClientError Unit × Nat)
    (post : RABase → Except ClientError A) (data : List RABase)
    (ct : MOType) (responses : Nat → HttpReply) :
    check_if_server_online none probe = (.error .notInitialized, 0) ∧
    post_to_backend none post data = (.error .notInitialized, []) ∧
    post_single_attempt none pm ct (responses 1) = .error .notInitialized ∧
    post_single_to_backend none pm ct responses
      = .error (.retryExhausted .notInitialized) := by
  refine ⟨rfl, rfl, rfl, ?_⟩
  simp [post_single_to_backend, tenacity_retry, retryLoop, post_single_attempt,
    verify_session]

/-- C10: when all 7 attempts of _post_single_to_backend raise — transport
failures and HTTP error responses in any mix, both drawing on the same
attempt budget — the caller receives the retry wrapper RetryError wrapping
the exception of the last (7th) attempt, not the underlying exception
itself. -/
theorem claim_C10 (sid : ClientSession) (isNet : Nat → Bool) (st : Nat → Nat)
    (d : Nat → Option String) (raw : Nat → String) :
    post_single_to_backend (some sid) mo_path_map .Employee
      (fun k => if isNet k then .netFail else .reply (400 + st k) ⟨d k, raw k⟩)
      = .error (.retryExhausted
          (if isNet 7 then .network else
            match d 7 with
            | some m => .backendValidation m
            | none => .httpStatus (400 + st 7))) := by
  have hstep : ∀ k, post_single_attempt (some sid) mo_path_map .Employee
      (if isNet k then .netFail else .reply (400 + st k) ⟨d k, raw k⟩)
      = .error (if isNet k then .network else
          match d k with
          | some m => .backendValidation m
          | none => .httpStatus (400 + st k)) := by
    intro k
    by_cases h : isNet k
    · simp [h, post_single_attempt, verify_session, mo_path_map]
    · simp only [h, Bool.false_eq_true, if_false]
      simp [post_single_attempt, verify_session, mo_path_map]
      cases d k with
      | none => simp [Nat.le_add_right]
      | some m => simp [Nat.le_add_right]
  simp only [post_single_to_backend, tenacity_retry, retryLoop, hstep]

/-- Witness for C3 (amended) at a concrete two-type input. -/
theorem claim_C3_amended_witness :
    ∃ portions : List (List RABase),
      (submit_payloads 1 (some ⟨0⟩) mo_path_map (fun x => Except.ok (id x))
        [objE1, objO1] [[0], [0]]).result = .ok portions.flatten ∧
      List.Forall₂ (fun w p => List.Perm w (p.2.map id)) portions
        (groupbyRuns raTypeName [objE1, objO1]) :=
  claim_C3_amended RABase 1 ⟨0⟩ mo_path_map id [objE1, objO1] [[0], [0]]
    (by decide) (by decide) (by decide) (by decide) (by decide)

/-- Witness for C5 at a concrete input holding one object of the unmapped
runtime type ITUser. -/
theorem claim_C5_witness :
    (∃ n, (submit_payloads 1 (some ⟨0⟩) mo_path_map (fun x => Except.ok (id x))
        [⟨.Other ("ITUser"), ("x")⟩] [[0]]).result = .error (.unknownType n)) ∧
    ((submit_payloads 1 (some ⟨0⟩) mo_path_map (fun x => Except.ok (id x))
        [⟨.Other ("ITUser"), ("x")⟩] [[0]]).posts).all
        (fun o => (mo_path_map o.typ).isSome) = true :=
  claim_C5 RABase 1 ⟨0⟩ mo_path_map id [⟨.Other ("ITUser"), ("x")⟩] [[0]]
    (by decide) (by decide) (by decide) (by decide)

/-- Witness for C6 at a concrete three-object, two-type input. -/
theorem claim_C6_witness :
    ∃ rs, (submit_payloads 2 (some ⟨0⟩) mo_path_map (fun x => Except.ok (id x))
        [objE1, objE2, objO1] [[0], [0]]).result = .ok rs ∧
      rs.length = ([objE1, objE2, objO1] : List RABase).length :=
  claim_C6 RABase 2 ⟨0⟩ mo_path_map id [objE1, objE2, objO1] [[0], [0]]
    (by decide) (by decide) (by decide) (by decide) (by decide)
